import Mathlib

/-!
Verification of the linear-auction step-schedule encoder
(`encodeLinearAuctionSteps` in the auction-creation page of the dApp).

The encoder takes a requested duration in blocks (a JS BigInt, hence a
mathematical integer), validates it, splits the fixed total of
10,000,000 mps-units into one or two constant-rate steps, and serializes
each step as an 8-byte big-endian record `(mps << 40) | blockDelta`
rendered as hexadecimal text.

Modelling conventions:
* JS BigInt values are `Int` (inputs) or `Nat` (values known nonnegative).
* The thrown `Error`s are an `EncodeError` value in `Except`.
* The produced hex string is modelled as the list of its hex-digit
  values (0..15), dropping the constant "0x" prefix and the digit-to-
  character table, which are bijective renaming only.
-/

namespace CCA

/-- Constant MPS_TOTAL: the total MPS must sum to 1e7. -/
def MPS_TOTAL : Nat := 10000000

/-- Constant MAX_MPS = (1 << 24) - 1: max value for the 24-bit mps field. -/
def MAX_MPS : Nat := 2 ^ 24 - 1

/-- Constant MAX_BLOCK_DELTA = (1 << 40) - 1: max value for the 40-bit blockDelta field. -/
def MAX_BLOCK_DELTA : Nat := 2 ^ 40 - 1

/-- One issuance step: a 24-bit rate (mps) applied for a 40-bit number of blocks. -/
structure Step where
  mps : Nat
  blockDelta : Nat
deriving Repr, DecidableEq

/-- The four throw sites of the encoder, in source order. -/
inductive EncodeError where
  | invalidDuration
  | durationTooLarge
  | rateOverflow
  | internalInvariantViolation
deriving Repr, DecidableEq

/-- Little-endian hex digits of a natural number, with explicit fuel so that
the recursion is structural (the fuel only needs to dominate the value). -/
def toHexLEAux : Nat → Nat → List Nat
  | 0, _ => []
  | fuel + 1, n => if n = 0 then [] else n % 16 :: toHexLEAux fuel (n / 16)

/-- Little-endian hex digits of a natural number; empty for 0. -/
def toHexLE (n : Nat) : List Nat :=
  toHexLEAux n n

/-- JS `BigInt.prototype.toString(16)` on a nonnegative value, as digit values:
big-endian hex digits with no leading zero, except that 0 renders as "0". -/
def toHexString (n : Nat) : List Nat :=
  if n = 0 then [0] else (toHexLE n).reverse

/-- JS `String.prototype.padStart(len, '0')` on a digit list. -/
def padStart (len : Nat) (l : List Nat) : List Nat :=
  List.replicate (len - l.length) 0 ++ l

/-- The packed 64-bit record of one step: `(step.mps << 40n) | step.blockDelta`. -/
def packStep (s : Step) : Nat :=
  (s.mps <<< 40) ||| s.blockDelta

/-- The hex text one step contributes to the output:
`packedValue.toString(16).padStart(16, '0')`. -/
def stepHex (s : Step) : List Nat :=
  padStart 16 (toHexString (packStep s))

/-- The steps construction of the encoder (the `remainder === 0n` branch builds a
single step; otherwise the blocks at the base rate, when any, are followed by the
remainder blocks at the base rate plus one). -/
def mkSteps (d : Nat) : List Step :=
  let baseMps := MPS_TOTAL / d
  let remainder := MPS_TOTAL % d
  if remainder = 0 then
    [⟨baseMps, d⟩]
  else
    let blocksAtHigherMps := remainder
    let blocksAtBaseMps := d - remainder
    (if 0 < blocksAtBaseMps then [⟨baseMps, blocksAtBaseMps⟩] else [])
      ++ [⟨baseMps + 1, blocksAtHigherMps⟩]

/-- Embedding of `encodeLinearAuctionSteps(durationInBlocks: bigint)`:
validation, rate computation, step construction (`mkSteps`), the defensive
total check, and serialization of each step, in source order. -/
def encodeLinearAuctionSteps (durationInBlocks : Int) : Except EncodeError (List Nat) :=
  if durationInBlocks ≤ 0 then
    .error .invalidDuration
  else if (MAX_BLOCK_DELTA : Int) < durationInBlocks then
    .error .durationTooLarge
  else
    let d : Nat := durationInBlocks.toNat
    let baseMps : Nat := MPS_TOTAL / d
    if MAX_MPS < baseMps ∨ MAX_MPS < baseMps + 1 then
      .error .rateOverflow
    else
      let steps : List Step := mkSteps d
      let totalMps : Nat := steps.foldl (fun acc s => acc + s.mps * s.blockDelta) 0
      if totalMps ≠ MPS_TOTAL then
        .error .internalInvariantViolation
      else
        .ok (steps.foldl (fun acc s => acc ++ stepHex s) [])

/-! Decode-side definitions, following the spec's description of the wire
format: the hex text denotes a byte sequence; each 8-byte record is read
big-endian; the rate is the top 24 bits and the duration the low 40 bits. -/

/-- Value of a big-endian digit list in the given base. -/
def ofDigitsBE (base : Nat) (ds : List Nat) : Nat :=
  ds.foldl (fun acc dg => base * acc + dg) 0

/-- The byte sequence a hex-digit list denotes (two hex digits per byte). -/
def bytesOfHexDigits : List Nat → List Nat
  | hi :: lo :: rest => (16 * hi + lo) :: bytesOfHexDigits rest
  | _ => []

/-- Decode a byte sequence into steps: each 8-byte big-endian record yields
the step whose rate is the top 24 bits and whose duration is the low 40 bits. -/
def decodeStepsBytes : List Nat → List Step
  | b0 :: b1 :: b2 :: b3 :: b4 :: b5 :: b6 :: b7 :: rest =>
    let v := ofDigitsBE 256 [b0, b1, b2, b3, b4, b5, b6, b7]
    ⟨v / 2 ^ 40, v % 2 ^ 40⟩ :: decodeStepsBytes rest
  | _ => []

/-- Fixed-width big-endian digit expansion (the low `len` digits of `n`),
most significant digit first. -/
def toBEDigits (base len n : Nat) : List Nat :=
  match len with
  | 0 => []
  | len + 1 => (n / base ^ len % base) :: toBEDigits base len n

/-! Helper lemmas about the digit machinery. -/

theorem toHexLEAux_congr :
    ∀ f₁ f₂ n, n ≤ f₁ → n ≤ f₂ → toHexLEAux f₁ n = toHexLEAux f₂ n := by
  intro f₁
  induction f₁ with
  | zero =>
    intro f₂ n h₁ h₂
    have hn : n = 0 := by omega
    subst hn
    cases f₂ <;> simp [toHexLEAux]
  | succ f ih =>
    intro f₂ n h₁ h₂
    match f₂ with
    | 0 =>
      have hn : n = 0 := by omega
      subst hn
      simp [toHexLEAux]
    | g + 1 =>
      simp only [toHexLEAux]
      by_cases hn : n = 0
      · simp [hn]
      · simp only [hn, if_false]
        have hlt : n / 16 < n := Nat.div_lt_self (Nat.pos_of_ne_zero hn) (by norm_num)
        exact congrArg _ (ih g (n / 16) (by omega) (by omega))

theorem toHexLE_unfold (n : Nat) :
    toHexLE n = if n = 0 then [] else n % 16 :: toHexLE (n / 16) := by
  by_cases hn : n = 0
  · subst hn
    simp [toHexLE, toHexLEAux]
  · obtain ⟨m, rfl⟩ : ∃ m, n = m + 1 := ⟨n - 1, by omega⟩
    simp only [toHexLE, toHexLEAux, hn, if_false]
    have hlt : (m + 1) / 16 < m + 1 := Nat.div_lt_self (by omega) (by norm_num)
    exact congrArg _ (toHexLEAux_congr m ((m + 1) / 16) ((m + 1) / 16) (by omega) le_rfl)

theorem toBEDigits_append (base : Nat) :
    ∀ len n, toBEDigits base (len + 1) n = toBEDigits base len (n / base) ++ [n % base] := by
  intro len
  induction len with
  | zero => intro n; simp [toBEDigits]
  | succ k ih =>
    intro n
    calc toBEDigits base (k + 1 + 1) n
        = (n / base ^ (k + 1) % base) :: toBEDigits base (k + 1) n := rfl
      _ = (n / base ^ (k + 1) % base) :: (toBEDigits base k (n / base) ++ [n % base]) := by
          rw [ih]
      _ = (n / base / base ^ k % base) :: (toBEDigits base k (n / base) ++ [n % base]) := by
          rw [Nat.div_div_eq_div_mul, ← pow_succ']
      _ = ((n / base / base ^ k % base) :: toBEDigits base k (n / base)) ++ [n % base] := by
          rw [List.cons_append]
      _ = toBEDigits base (k + 1) (n / base) ++ [n % base] := rfl

theorem toBEDigits_length (base : Nat) : ∀ len n, (toBEDigits base len n).length = len := by
  intro len
  induction len with
  | zero => intro n; simp [toBEDigits]
  | succ k ih => intro n; simp [toBEDigits, ih]

theorem toBEDigits_eq_pad :
    ∀ len n, n < 16 ^ len →
      toBEDigits 16 len n = List.replicate (len - (toHexLE n).length) 0 ++ (toHexLE n).reverse := by
  intro len
  induction len with
  | zero =>
    intro n hn
    have h0 : n = 0 := by omega
    subst h0
    simp [toBEDigits, toHexLE, toHexLEAux]
  | succ k ih =>
    intro n hn
    rw [toBEDigits_append]
    by_cases h0 : n = 0
    · subst h0
      rw [toHexLE_unfold]
      simp only [if_pos rfl, List.length_nil, Nat.sub_zero, List.reverse_nil, List.append_nil]
      rw [Nat.zero_div, ih 0 (Nat.pos_pow_of_pos k (by norm_num)), Nat.zero_mod]
      rw [toHexLE_unfold]
      simp [List.replicate_succ']
    · have hdiv : n / 16 < 16 ^ k := by
        rw [Nat.div_lt_iff_lt_mul (by norm_num : 0 < 16)]
        calc n < 16 ^ (k + 1) := hn
          _ = 16 ^ k * 16 := by rw [pow_succ]
      rw [ih (n / 16) hdiv]
      conv_rhs => rw [toHexLE_unfold]
      simp only [h0, if_false, List.length_cons, List.reverse_cons]
      rw [Nat.succ_sub_succ_eq_sub, List.append_assoc]

theorem padStart_toHexString (len n : Nat) (hlen : 0 < len) (hn : n < 16 ^ len) :
    padStart len (toHexString n) = toBEDigits 16 len n := by
  by_cases h0 : n = 0
  · subst h0
    obtain ⟨k, rfl⟩ : ∃ k, len = k + 1 := ⟨len - 1, by omega⟩
    rw [toBEDigits_eq_pad (k + 1) 0 (Nat.pos_pow_of_pos _ (by norm_num))]
    simp only [toHexString, if_pos rfl, padStart, List.length_singleton]
    rw [toHexLE_unfold]
    simp [List.replicate_succ']
  · rw [toBEDigits_eq_pad len n hn]
    simp [toHexString, h0, padStart]

theorem mod_mul_decomp (n a b : Nat) : n % (a * b) = a * (n / a % b) + n % a := by
  conv_lhs => rw [← Nat.div_add_mod (n % (a * b)) a]
  rw [Nat.mod_mul_right_div_self, Nat.mod_mod_of_dvd _ (dvd_mul_right a b)]

theorem ofDigitsBE_append_singleton (base : Nat) (l : List Nat) (x : Nat) :
    ofDigitsBE base (l ++ [x]) = base * ofDigitsBE base l + x := by
  simp [ofDigitsBE, List.foldl_append]

theorem ofDigitsBE_toBEDigits (base : Nat) :
    ∀ len n, ofDigitsBE base (toBEDigits base len n) = n % base ^ len := by
  intro len
  induction len with
  | zero => intro n; simp [toBEDigits, ofDigitsBE, Nat.mod_one]
  | succ k ih =>
    intro n
    rw [toBEDigits_append, ofDigitsBE_append_singleton, ih]
    rw [pow_succ', mod_mul_decomp]

theorem bytesOfHexDigits_toBEDigits :
    ∀ (k n : Nat) (rest : List Nat),
      bytesOfHexDigits (toBEDigits 16 (2 * k) n ++ rest)
        = toBEDigits 256 k n ++ bytesOfHexDigits rest := by
  intro k
  induction k with
  | zero => intro n rest; simp [toBEDigits]
  | succ k ih =>
    intro n rest
    have h2 : 2 * (k + 1) = 2 * k + 1 + 1 := by omega
    rw [h2]
    show bytesOfHexDigits
        ((n / 16 ^ (2 * k + 1) % 16) :: (n / 16 ^ (2 * k) % 16) :: toBEDigits 16 (2 * k) n ++ rest)
      = ((n / 256 ^ k % 256) :: toBEDigits 256 k n) ++ bytesOfHexDigits rest
    rw [List.cons_append, List.cons_append, List.cons_append]
    show (16 * (n / 16 ^ (2 * k + 1) % 16) + n / 16 ^ (2 * k) % 16)
        :: bytesOfHexDigits (toBEDigits 16 (2 * k) n ++ rest)
      = (n / 256 ^ k % 256) :: (toBEDigits 256 k n ++ bytesOfHexDigits rest)
    rw [ih]
    have hpow : (16 : Nat) ^ (2 * k) = 256 ^ k := by
      rw [show (256 : Nat) = 16 ^ 2 from by norm_num, ← pow_mul]
    have hdd : n / 16 ^ (2 * k + 1) = n / 16 ^ (2 * k) / 16 := by
      rw [Nat.div_div_eq_div_mul, ← pow_succ]
    have hval : 16 * (n / 16 ^ (2 * k + 1) % 16) + n / 16 ^ (2 * k) % 16
        = n / 16 ^ (2 * k) % 256 := by
      rw [hdd, show (256 : Nat) = 16 * 16 from rfl, mod_mul_decomp]
    rw [hval, hpow]

theorem decodeStepsBytes_record (v : Nat) (hv : v < 2 ^ 64) (rest : List Nat) :
    decodeStepsBytes (toBEDigits 256 8 v ++ rest)
      = ⟨v / 2 ^ 40, v % 2 ^ 40⟩ :: decodeStepsBytes rest := by
  have e : toBEDigits 256 8 v
      = v / 256 ^ 7 % 256 :: v / 256 ^ 6 % 256 :: v / 256 ^ 5 % 256 :: v / 256 ^ 4 % 256
        :: v / 256 ^ 3 % 256 :: v / 256 ^ 2 % 256 :: v / 256 ^ 1 % 256 :: v / 256 ^ 0 % 256
        :: [] := rfl
  rw [e]
  show (fun w => (⟨w / 2 ^ 40, w % 2 ^ 40⟩ : Step) :: decodeStepsBytes rest)
      (ofDigitsBE 256 [v / 256 ^ 7 % 256, v / 256 ^ 6 % 256, v / 256 ^ 5 % 256,
        v / 256 ^ 4 % 256, v / 256 ^ 3 % 256, v / 256 ^ 2 % 256, v / 256 ^ 1 % 256,
        v / 256 ^ 0 % 256])
    = ⟨v / 2 ^ 40, v % 2 ^ 40⟩ :: decodeStepsBytes rest
  have hofd : ofDigitsBE 256 [v / 256 ^ 7 % 256, v / 256 ^ 6 % 256, v / 256 ^ 5 % 256,
      v / 256 ^ 4 % 256, v / 256 ^ 3 % 256, v / 256 ^ 2 % 256, v / 256 ^ 1 % 256,
      v / 256 ^ 0 % 256] = v := by
    rw [← e, ofDigitsBE_toBEDigits]
    exact Nat.mod_eq_of_lt (by norm_num at hv ⊢; omega)
  rw [hofd]

theorem packStep_eq (s : Step) (hδ : s.blockDelta < 2 ^ 40) :
    packStep s = s.mps * 2 ^ 40 + s.blockDelta := by
  have h := Nat.mul_add_lt_is_or (i := 40) hδ s.mps
  calc packStep s = s.mps <<< 40 ||| s.blockDelta := rfl
    _ = s.mps * 2 ^ 40 ||| s.blockDelta := by rw [Nat.shiftLeft_eq]
    _ = 2 ^ 40 * s.mps ||| s.blockDelta := by rw [Nat.mul_comm]
    _ = 2 ^ 40 * s.mps + s.blockDelta := h.symm
    _ = s.mps * 2 ^ 40 + s.blockDelta := by rw [Nat.mul_comm]

theorem packStep_lt (s : Step) (hm : s.mps < 2 ^ 24) (hδ : s.blockDelta < 2 ^ 40) :
    s.mps * 2 ^ 40 + s.blockDelta < 2 ^ 64 := by
  have h1 : s.mps * 2 ^ 40 ≤ (2 ^ 24 - 1) * 2 ^ 40 :=
    Nat.mul_le_mul_right _ (by omega)
  norm_num at h1 hδ ⊢
  omega

theorem stepHex_eq (s : Step) (hm : s.mps < 2 ^ 24) (hδ : s.blockDelta < 2 ^ 40) :
    stepHex s = toBEDigits 16 16 (s.mps * 2 ^ 40 + s.blockDelta) := by
  rw [stepHex, packStep_eq s hδ]
  exact padStart_toHexString 16 _ (by norm_num)
    (by have := packStep_lt s hm hδ; norm_num at this ⊢; omega)

theorem bytes_encode :
    ∀ steps : List Step, (∀ s ∈ steps, s.mps < 2 ^ 24 ∧ s.blockDelta < 2 ^ 40) →
      bytesOfHexDigits ((steps.map stepHex).flatten)
        = (steps.map fun s => toBEDigits 256 8 (s.mps * 2 ^ 40 + s.blockDelta)).flatten := by
  intro steps
  induction steps with
  | nil => intro _; simp [bytesOfHexDigits]
  | cons s rest ih =>
    intro h
    have hs := h s (by simp)
    have hrest : ∀ t ∈ rest, t.mps < 2 ^ 24 ∧ t.blockDelta < 2 ^ 40 :=
      fun t ht => h t (by simp [ht])
    simp only [List.map_cons, List.flatten_cons]
    rw [stepHex_eq s hs.1 hs.2]
    have hb := bytesOfHexDigits_toBEDigits 8 (s.mps * 2 ^ 40 + s.blockDelta)
      ((rest.map stepHex).flatten)
    rw [show 2 * 8 = 16 from rfl] at hb
    rw [hb, ih hrest]

theorem decode_records :
    ∀ steps : List Step, (∀ s ∈ steps, s.mps < 2 ^ 24 ∧ s.blockDelta < 2 ^ 40) →
      decodeStepsBytes
          ((steps.map fun s => toBEDigits 256 8 (s.mps * 2 ^ 40 + s.blockDelta)).flatten)
        = steps := by
  intro steps
  induction steps with
  | nil => intro _; simp [decodeStepsBytes]
  | cons s rest ih =>
    intro h
    have hs := h s (by simp)
    have hrest : ∀ t ∈ rest, t.mps < 2 ^ 24 ∧ t.blockDelta < 2 ^ 40 :=
      fun t ht => h t (by simp [ht])
    simp only [List.map_cons, List.flatten_cons]
    rw [decodeStepsBytes_record _ (packStep_lt s hs.1 hs.2) _, ih hrest]
    have hdiv : (s.mps * 2 ^ 40 + s.blockDelta) / 2 ^ 40 = s.mps := by
      rw [Nat.mul_comm, Nat.mul_add_div (by norm_num), Nat.div_eq_of_lt hs.2, Nat.add_zero]
    have hmod : (s.mps * 2 ^ 40 + s.blockDelta) % 2 ^ 40 = s.blockDelta := by
      rw [Nat.mul_comm, Nat.mul_add_mod, Nat.mod_eq_of_lt hs.2]
    rw [hdiv, hmod]

theorem decode_encode (steps : List Step)
    (h : ∀ s ∈ steps, s.mps < 2 ^ 24 ∧ s.blockDelta < 2 ^ 40) :
    decodeStepsBytes (bytesOfHexDigits ((steps.map stepHex).flatten)) = steps := by
  rw [bytes_encode steps h]
  exact decode_records steps h

/-! Lemmas about the constructed schedule. -/

theorem mkSteps_eq (d : Nat) (hd : 0 < d) :
    mkSteps d = if MPS_TOTAL % d = 0 then [⟨MPS_TOTAL / d, d⟩]
      else [⟨MPS_TOTAL / d, d - MPS_TOTAL % d⟩, ⟨MPS_TOTAL / d + 1, MPS_TOTAL % d⟩] := by
  by_cases h : MPS_TOTAL % d = 0
  · simp [mkSteps, h]
  · have hlt : MPS_TOTAL % d < d := Nat.mod_lt _ hd
    have hpos : 0 < d - MPS_TOTAL % d := by omega
    simp [mkSteps, h, hpos]

theorem mkSteps_sum_mul (d : Nat) (hd : 0 < d) :
    ((mkSteps d).map fun s => s.mps * s.blockDelta).sum = MPS_TOTAL := by
  rw [mkSteps_eq d hd]
  by_cases h : MPS_TOTAL % d = 0
  · simp only [if_pos h, List.map_cons, List.map_nil, List.sum_cons, List.sum_nil,
      Nat.add_zero]
    exact Nat.div_mul_cancel (Nat.dvd_of_mod_eq_zero h)
  · simp only [if_neg h, List.map_cons, List.map_nil, List.sum_cons, List.sum_nil,
      Nat.add_zero]
    have hlt : MPS_TOTAL % d < d := Nat.mod_lt _ hd
    have key : MPS_TOTAL / d * (d - MPS_TOTAL % d) + (MPS_TOTAL / d + 1) * (MPS_TOTAL % d)
        = MPS_TOTAL / d * d + MPS_TOTAL % d := by
      have h1 : d - MPS_TOTAL % d + MPS_TOTAL % d = d := by omega
      calc MPS_TOTAL / d * (d - MPS_TOTAL % d) + (MPS_TOTAL / d + 1) * (MPS_TOTAL % d)
          = MPS_TOTAL / d * ((d - MPS_TOTAL % d) + MPS_TOTAL % d) + MPS_TOTAL % d := by ring
        _ = MPS_TOTAL / d * d + MPS_TOTAL % d := by rw [h1]
    rw [key, Nat.mul_comm, Nat.div_add_mod]

theorem mkSteps_sum_delta (d : Nat) (hd : 0 < d) :
    ((mkSteps d).map Step.blockDelta).sum = d := by
  rw [mkSteps_eq d hd]
  by_cases h : MPS_TOTAL % d = 0
  · simp [if_pos h]
  · have hlt : MPS_TOTAL % d < d := Nat.mod_lt _ hd
    simp only [if_neg h, List.map_cons, List.map_nil, List.sum_cons, List.sum_nil]
    omega

theorem mkSteps_bounds (d : Nat) (hd : 0 < d) (hmax : d ≤ MAX_BLOCK_DELTA) :
    ∀ s ∈ mkSteps d, s.mps < 2 ^ 24 ∧ 0 < s.blockDelta ∧ s.blockDelta < 2 ^ 40 := by
  have hb' : MPS_TOTAL / d ≤ 10000000 := Nat.div_le_self _ _
  have hmax' : d ≤ 2 ^ 40 - 1 := hmax
  have h24 : (2 : Nat) ^ 24 = 16777216 := by norm_num
  have h40 : (2 : Nat) ^ 40 = 1099511627776 := by norm_num
  intro s hs
  rw [mkSteps_eq d hd] at hs
  by_cases h : MPS_TOTAL % d = 0
  · rw [if_pos h] at hs
    simp only [List.mem_singleton] at hs
    subst hs
    refine ⟨?_, ?_, ?_⟩
    · show MPS_TOTAL / d < 2 ^ 24
      omega
    · exact hd
    · show d < 2 ^ 40
      omega
  · rw [if_neg h] at hs
    have hlt : MPS_TOTAL % d < d := Nat.mod_lt _ hd
    simp only [List.mem_cons, List.not_mem_nil, or_false] at hs
    rcases hs with hs | hs <;> subst hs
    · refine ⟨?_, ?_, ?_⟩
      · show MPS_TOTAL / d < 2 ^ 24
        omega
      · show 0 < d - MPS_TOTAL % d
        omega
      · show d - MPS_TOTAL % d < 2 ^ 40
        omega
    · refine ⟨?_, ?_, ?_⟩
      · show MPS_TOTAL / d + 1 < 2 ^ 24
        omega
      · show 0 < MPS_TOTAL % d
        omega
      · show MPS_TOTAL % d < 2 ^ 40
        omega

/-! Evaluation of the encoder on its non-error path. -/

theorem foldl_add_eq_sum :
    ∀ (l : List Step) (acc : Nat),
      l.foldl (fun a s => a + s.mps * s.blockDelta) acc
        = acc + (l.map fun s => s.mps * s.blockDelta).sum := by
  intro l
  induction l with
  | nil => intro acc; simp
  | cons s rest ih => intro acc; simp [ih, Nat.add_assoc]

theorem foldl_append_eq_flatten :
    ∀ (l : List Step) (acc : List Nat),
      l.foldl (fun acc s => acc ++ stepHex s) acc = acc ++ (l.map stepHex).flatten := by
  intro l
  induction l with
  | nil => intro acc; simp
  | cons s rest ih => intro acc; simp [ih]

theorem encode_spec (d : Int) :
    encodeLinearAuctionSteps d =
      if d ≤ 0 then .error .invalidDuration
      else if (MAX_BLOCK_DELTA : Int) < d then .error .durationTooLarge
      else .ok (((mkSteps d.toNat).map stepHex).flatten) := by
  by_cases h1 : d ≤ 0
  · simp [encodeLinearAuctionSteps, h1]
  · by_cases h2 : (MAX_BLOCK_DELTA : Int) < d
    · simp [encodeLinearAuctionSteps, h1, h2]
    · have hd0 : 0 < d.toNat := by omega
      have hrate : ¬(MAX_MPS < MPS_TOTAL / d.toNat ∨ MAX_MPS < MPS_TOTAL / d.toNat + 1) := by
        have hb : MPS_TOTAL / d.toNat ≤ MPS_TOTAL := Nat.div_le_self _ _
        have hb' : MPS_TOTAL / d.toNat ≤ 10000000 := hb
        rw [show MAX_MPS = 16777215 from rfl]
        omega
      have htot : (mkSteps d.toNat).foldl (fun acc s => acc + s.mps * s.blockDelta) 0
          = MPS_TOTAL := by
        rw [foldl_add_eq_sum, mkSteps_sum_mul d.toNat hd0, Nat.zero_add]
      simp only [encodeLinearAuctionSteps, h1, if_false, h2]
      rw [if_neg hrate, if_neg (show ¬_ ≠ _ by simp [htot]), foldl_append_eq_flatten,
        List.nil_append]

theorem encode_ok_iff (d : Int) (out : List Nat) :
    encodeLinearAuctionSteps d = .ok out ↔
      (1 ≤ d ∧ d ≤ 1099511627775 ∧ out = ((mkSteps d.toNat).map stepHex).flatten) := by
  rw [encode_spec]
  by_cases h1 : d ≤ 0
  · simp only [if_pos h1]
    constructor
    · intro h; exact absurd h (by simp)
    · rintro ⟨ha, -, -⟩; omega
  · by_cases h2 : (MAX_BLOCK_DELTA : Int) < d
    · simp only [if_neg h1, if_pos h2]
      constructor
      · intro h; exact absurd h (by simp)
      · rintro ⟨-, hb, -⟩
        rw [show MAX_BLOCK_DELTA = 2 ^ 40 - 1 from rfl] at h2
        norm_num at h2
        omega
    · simp only [if_neg h1, if_neg h2]
      constructor
      · intro h
        have hout := Except.ok.inj h
        rw [show MAX_BLOCK_DELTA = 2 ^ 40 - 1 from rfl] at h2
        norm_num at h2
        exact ⟨by omega, by omega, hout.symm⟩
      · rintro ⟨-, -, rfl⟩
        rfl

theorem toNat_le_max (d : Int) (h2 : d ≤ 1099511627775) : d.toNat ≤ MAX_BLOCK_DELTA := by
  rw [show MAX_BLOCK_DELTA = 1099511627775 from by norm_num [MAX_BLOCK_DELTA]]
  omega

theorem records_length (L : List Step) :
    ((L.map fun s => toBEDigits 256 8 (s.mps * 2 ^ 40 + s.blockDelta)).flatten).length
      = 8 * L.length := by
  induction L with
  | nil => simp
  | cons a t ih =>
    simp only [List.map_cons, List.flatten_cons, List.length_append, ih,
      toBEDigits_length, List.length_cons]
    omega

/-! The claims. -/

/-- C1: for every requestedDuration in [1, 1099511627775] on which the encoder
succeeds, decoding the produced bytes back into steps (8-byte big-endian records,
rate = top 24 bits, duration = low 40 bits) recovers the constructed steps exactly,
and the decoded steps multiply-sum to exactly 10,000,000 and duration-sum to
exactly the requested duration. -/
theorem claim_roundtrip_exact (d : Int) (out : List Nat)
    (h1 : 1 ≤ d) (h2 : d ≤ 1099511627775)
    (henc : encodeLinearAuctionSteps d = .ok out) :
    decodeStepsBytes (bytesOfHexDigits out) = mkSteps d.toNat
      ∧ ((decodeStepsBytes (bytesOfHexDigits out)).map fun s => s.mps * s.blockDelta).sum
          = 10000000
      ∧ ((decodeStepsBytes (bytesOfHexDigits out)).map Step.blockDelta).sum = d.toNat := by
  obtain ⟨-, -, rfl⟩ := (encode_ok_iff d out).1 henc
  have hd0 : 0 < d.toNat := by omega
  have hbounds := mkSteps_bounds d.toNat hd0 (toNat_le_max d h2)
  have hdec := decode_encode (mkSteps d.toNat)
    (fun s hs => ⟨(hbounds s hs).1, (hbounds s hs).2.2⟩)
  refine ⟨hdec, ?_, ?_⟩
  · rw [hdec]
    exact mkSteps_sum_mul d.toNat hd0
  · rw [hdec]
    exact mkSteps_sum_delta d.toNat hd0

theorem claim_roundtrip_exact_witness :
    decodeStepsBytes (bytesOfHexDigits (((mkSteps (3 : Int).toNat).map stepHex).flatten))
        = mkSteps (3 : Int).toNat
      ∧ ((decodeStepsBytes
            (bytesOfHexDigits (((mkSteps (3 : Int).toNat).map stepHex).flatten))).map
          fun s => s.mps * s.blockDelta).sum = 10000000
      ∧ ((decodeStepsBytes
            (bytesOfHexDigits (((mkSteps (3 : Int).toNat).map stepHex).flatten))).map
          Step.blockDelta).sum = (3 : Int).toNat :=
  claim_roundtrip_exact 3 _ (by norm_num) (by norm_num)
    ((encode_ok_iff 3 _).2 ⟨by norm_num, by norm_num, rfl⟩)

/-- C2: for every requestedDuration d in [1, 1099511627775], the encoder constructs
exactly the schedule given by baseRate = 10,000,000 div d and remainder =
10,000,000 mod d: one step on exact division, otherwise the base-rate step followed
by the remainder step at baseRate + 1, and the encoder returns their serialization.
The witness instantiates d = 3, yielding steps {3333333, 2} then {3333334, 1}. -/
theorem claim_schedule_construction (d : Int) (h1 : 1 ≤ d) (h2 : d ≤ 1099511627775) :
    mkSteps d.toNat =
        (if MPS_TOTAL % d.toNat = 0 then [⟨MPS_TOTAL / d.toNat, d.toNat⟩]
          else [⟨MPS_TOTAL / d.toNat, d.toNat - MPS_TOTAL % d.toNat⟩,
            ⟨MPS_TOTAL / d.toNat + 1, MPS_TOTAL % d.toNat⟩])
      ∧ encodeLinearAuctionSteps d = .ok (((mkSteps d.toNat).map stepHex).flatten) := by
  have hd0 : 0 < d.toNat := by omega
  exact ⟨mkSteps_eq d.toNat hd0, (encode_ok_iff d _).2 ⟨h1, h2, rfl⟩⟩

theorem claim_schedule_construction_witness :
    mkSteps (3 : Int).toNat = [⟨3333333, 2⟩, ⟨3333334, 1⟩]
      ∧ encodeLinearAuctionSteps 3 = .ok (((mkSteps (3 : Int).toNat).map stepHex).flatten) := by
  have h := claim_schedule_construction 3 (by norm_num) (by norm_num)
  refine ⟨?_, h.2⟩
  rw [h.1]
  decide

/-- C3: on every success, the byte sequence the output denotes is the concatenation,
in step order, of one 8-byte big-endian record per step whose 64-bit value packs the
rate in bits 63..40 and the duration in bits 39..0 (that value being
(rateUnits << 40) | durationUnits), and the total byte length is 8 times the number
of steps (one step on exact division, two otherwise). -/
theorem claim_serialization_format (d : Int) (out : List Nat)
    (h1 : 1 ≤ d) (h2 : d ≤ 1099511627775)
    (henc : encodeLinearAuctionSteps d = .ok out) :
    bytesOfHexDigits out
        = ((mkSteps d.toNat).map
            fun s => toBEDigits 256 8 (s.mps * 2 ^ 40 + s.blockDelta)).flatten
      ∧ (∀ s ∈ mkSteps d.toNat,
          s.mps * 2 ^ 40 + s.blockDelta = packStep s
            ∧ s.mps * 2 ^ 40 + s.blockDelta < 2 ^ 64)
      ∧ (bytesOfHexDigits out).length = 8 * (mkSteps d.toNat).length
      ∧ (mkSteps d.toNat).length = (if MPS_TOTAL % d.toNat = 0 then 1 else 2) := by
  obtain ⟨-, -, rfl⟩ := (encode_ok_iff d out).1 henc
  have hd0 : 0 < d.toNat := by omega
  have hbounds := mkSteps_bounds d.toNat hd0 (toNat_le_max d h2)
  have hbe := bytes_encode (mkSteps d.toNat)
    (fun s hs => ⟨(hbounds s hs).1, (hbounds s hs).2.2⟩)
  refine ⟨hbe, ?_, ?_, ?_⟩
  · intro s hs
    exact ⟨(packStep_eq s (hbounds s hs).2.2).symm,
      packStep_lt s (hbounds s hs).1 (hbounds s hs).2.2⟩
  · rw [hbe, records_length]
  · rw [mkSteps_eq d.toNat hd0]
    by_cases h : MPS_TOTAL % d.toNat = 0 <;> simp [h]

theorem claim_serialization_format_witness :
    bytesOfHexDigits (((mkSteps (3 : Int).toNat).map stepHex).flatten)
        = ((mkSteps (3 : Int).toNat).map
            fun s => toBEDigits 256 8 (s.mps * 2 ^ 40 + s.blockDelta)).flatten
      ∧ (∀ s ∈ mkSteps (3 : Int).toNat,
          s.mps * 2 ^ 40 + s.blockDelta = packStep s
            ∧ s.mps * 2 ^ 40 + s.blockDelta < 2 ^ 64)
      ∧ (bytesOfHexDigits (((mkSteps (3 : Int).toNat).map stepHex).flatten)).length
          = 8 * (mkSteps (3 : Int).toNat).length
      ∧ (mkSteps (3 : Int).toNat).length
          = (if MPS_TOTAL % (3 : Int).toNat = 0 then 1 else 2) :=
  claim_serialization_format 3 _ (by norm_num) (by norm_num)
    ((encode_ok_iff 3 _).2 ⟨by norm_num, by norm_num, rfl⟩)

/-- C4: the encoder fails with InvalidDuration exactly when the requested duration
is zero or negative; the witness instantiates the inputs 0 and -5. -/
theorem claim_invalid_duration_iff (d : Int) :
    encodeLinearAuctionSteps d = .error .invalidDuration ↔ d ≤ 0 := by
  rw [encode_spec]
  by_cases h1 : d ≤ 0
  · simp [h1]
  · by_cases h2 : (MAX_BLOCK_DELTA : Int) < d <;> simp [h1, h2]

theorem claim_invalid_duration_iff_witness :
    encodeLinearAuctionSteps 0 = .error .invalidDuration
      ∧ encodeLinearAuctionSteps (-5) = .error .invalidDuration :=
  ⟨(claim_invalid_duration_iff 0).2 (by norm_num),
   (claim_invalid_duration_iff (-5)).2 (by norm_num)⟩

/-- C5: for every positive requested duration, the encoder fails with
DurationTooLarge exactly when the duration exceeds the 40-bit maximum
1,099,511,627,775, and succeeds whenever it does not; the witness instantiates the
boundary 1,099,511,627,775 (success) and 1,099,511,627,776 (failure). -/
theorem claim_duration_too_large_iff (d : Int) (hpos : 0 < d) :
    (encodeLinearAuctionSteps d = .error .durationTooLarge ↔ 1099511627775 < d)
      ∧ (d ≤ 1099511627775 → ∃ out, encodeLinearAuctionSteps d = .ok out) := by
  have hmax : (MAX_BLOCK_DELTA : Int) = 1099511627775 := by norm_num [MAX_BLOCK_DELTA]
  constructor
  · rw [encode_spec]
    have h1 : ¬(d ≤ 0) := by omega
    by_cases h2 : (MAX_BLOCK_DELTA : Int) < d
    · simp only [if_neg h1, if_pos h2]
      simp only [true_iff]
      omega
    · simp only [if_neg h1, if_neg h2]
      constructor
      · intro h
        exact absurd h (by simp)
      · intro h
        omega
  · intro hle
    exact ⟨_, (encode_ok_iff d _).2 ⟨by omega, hle, rfl⟩⟩

theorem claim_duration_too_large_iff_witness :
    (∃ out, encodeLinearAuctionSteps 1099511627775 = .ok out)
      ∧ encodeLinearAuctionSteps 1099511627776 = .error .durationTooLarge :=
  ⟨(claim_duration_too_large_iff 1099511627775 (by norm_num)).2 (by norm_num),
   (claim_duration_too_large_iff 1099511627776 (by norm_num)).1.2 (by norm_num)⟩

/-- C6: on every success, every step of the produced schedule has a rate fitting in
24 bits (at most 16,777,215) and a duration in [1, 1,099,511,627,775], never zero. -/
theorem claim_step_field_bounds (d : Int) (out : List Nat)
    (henc : encodeLinearAuctionSteps d = .ok out) :
    ∀ s ∈ mkSteps d.toNat,
      s.mps ≤ 16777215 ∧ 1 ≤ s.blockDelta ∧ s.blockDelta ≤ 1099511627775 := by
  obtain ⟨h1, h2, -⟩ := (encode_ok_iff d out).1 henc
  have hd0 : 0 < d.toNat := by omega
  intro s hs
  have h := mkSteps_bounds d.toNat hd0 (toNat_le_max d h2) s hs
  have h24 : (2 : Nat) ^ 24 = 16777216 := by norm_num
  have h40 : (2 : Nat) ^ 40 = 1099511627776 := by norm_num
  omega

theorem claim_step_field_bounds_witness :
    (⟨3333333, 2⟩ : Step).mps ≤ 16777215
      ∧ 1 ≤ (⟨3333333, 2⟩ : Step).blockDelta
      ∧ (⟨3333333, 2⟩ : Step).blockDelta ≤ 1099511627775 :=
  claim_step_field_bounds 3 _ ((encode_ok_iff 3 _).2 ⟨by norm_num, by norm_num, rfl⟩)
    ⟨3333333, 2⟩ (by decide)

/-- C7: the defensive post-computation cross-check never fails: on every input that
reaches it the recomputed total equals 10,000,000 exactly, so the
InternalInvariantViolation error is unreachable for every input whatsoever. -/
theorem claim_invariant_check_never_fails (d : Int) :
    encodeLinearAuctionSteps d ≠ .error .internalInvariantViolation
      ∧ (1 ≤ d → d ≤ 1099511627775 →
          (mkSteps d.toNat).foldl (fun acc s => acc + s.mps * s.blockDelta) 0 = MPS_TOTAL) := by
  constructor
  · rw [encode_spec]
    by_cases h1 : d ≤ 0
    · simp [h1]
    · by_cases h2 : (MAX_BLOCK_DELTA : Int) < d <;> simp [h1, h2]
  · intro h1 h2
    have hd0 : 0 < d.toNat := by omega
    rw [foldl_add_eq_sum, mkSteps_sum_mul d.toNat hd0, Nat.zero_add]

theorem claim_invariant_check_never_fails_witness :
    encodeLinearAuctionSteps 7200 ≠ .error .internalInvariantViolation
      ∧ (mkSteps (7200 : Int).toNat).foldl (fun acc s => acc + s.mps * s.blockDelta) 0
          = MPS_TOTAL :=
  ⟨(claim_invariant_check_never_fails 7200).1,
   (claim_invariant_check_never_fails 7200).2 (by norm_num) (by norm_num)⟩

/-- C8: with the total fixed at 10,000,000 the rate-overflow check is dead code:
the RateOverflow error is never raised, the encoder succeeds exactly on durations
in [1, 1,099,511,627,775], and on that range baseRate + 1 stays within the 24-bit
maximum. -/
theorem claim_rate_overflow_unreachable (d : Int) :
    encodeLinearAuctionSteps d ≠ .error .rateOverflow
      ∧ ((∃ out, encodeLinearAuctionSteps d = .ok out) ↔ 1 ≤ d ∧ d ≤ 1099511627775)
      ∧ (1 ≤ d → d ≤ 1099511627775 → MPS_TOTAL / d.toNat + 1 ≤ MAX_MPS) := by
  refine ⟨?_, ?_, ?_⟩
  · rw [encode_spec]
    by_cases h1 : d ≤ 0
    · simp [h1]
    · by_cases h2 : (MAX_BLOCK_DELTA : Int) < d <;> simp [h1, h2]
  · constructor
    · rintro ⟨out, hout⟩
      obtain ⟨ha, hb, -⟩ := (encode_ok_iff d out).1 hout
      exact ⟨ha, hb⟩
    · rintro ⟨ha, hb⟩
      exact ⟨_, (encode_ok_iff d _).2 ⟨ha, hb, rfl⟩⟩
  · intro h1 h2
    have hdiv : MPS_TOTAL / d.toNat ≤ 10000000 := Nat.div_le_self _ _
    show _ ≤ 16777215
    omega

theorem claim_rate_overflow_unreachable_witness :
    encodeLinearAuctionSteps 1 ≠ .error .rateOverflow
      ∧ (∃ out, encodeLinearAuctionSteps 1 = .ok out)
      ∧ MPS_TOTAL / (1 : Int).toNat + 1 ≤ MAX_MPS :=
  ⟨(claim_rate_overflow_unreachable 1).1,
   (claim_rate_overflow_unreachable 1).2.1.2 ⟨by norm_num, by norm_num⟩,
   (claim_rate_overflow_unreachable 1).2.2 (by norm_num) (by norm_num)⟩

/-- C9: the encoder is deterministic: equal requested durations give identical
output, as the result depends on nothing but the argument. -/
theorem claim_deterministic (d₁ d₂ : Int) (h : d₁ = d₂) :
    encodeLinearAuctionSteps d₁ = encodeLinearAuctionSteps d₂ :=
  congrArg encodeLinearAuctionSteps h

theorem claim_deterministic_witness :
    encodeLinearAuctionSteps 7200 = encodeLinearAuctionSteps 7200 :=
  claim_deterministic 7200 7200 rfl

/-- C10: the base rate is antitone in the requested duration: over the valid range,
a larger duration yields a base rate (10,000,000 div duration) that is no larger. -/
theorem claim_baseRate_antitone (d₁ d₂ : Int)
    (h1 : 1 ≤ d₁) (h12 : d₁ ≤ d₂) (h2 : d₂ ≤ 1099511627775) :
    MPS_TOTAL / d₂.toNat ≤ MPS_TOTAL / d₁.toNat :=
  Nat.div_le_div_left (by omega) (by omega)

theorem claim_baseRate_antitone_witness :
    MPS_TOTAL / (5 : Int).toNat ≤ MPS_TOTAL / (2 : Int).toNat :=
  claim_baseRate_antitone 2 5 (by norm_num) (by norm_num) (by norm_num)

end CCA
